import Mathlib

/-!
Shallow embedding of `process_frames.py` from device-frames-core: the template
extraction and validation pipeline (alpha normalizer, screen-candidate
selector, mask generator, bounds extractor, validator, emitter).

Images and masks are row-major grids of naturals (`List (List Nat)`), the
numpy 2-D arrays of the source.  Python float arithmetic in the ratio checks
is modelled with exact rationals: for 8-bit pixel values and realistic image
dimensions, the IEEE-double value of `a / b` compares against the constants
`1.3`, `2.5`, `0.5`, `0.9` exactly as the exact rational does (the distance
from any representable ratio `p/q` to those constants is at least `1/(10*q)`,
far above the double rounding error), so the rational embedding is faithful.
Filesystem effects of the emitter and of the processor constructor are
embedded as an explicit list of filesystem operations.
-/

namespace DeviceFrames

/-- Alpha threshold: source constant `ALPHA_CLEAR = 10`. -/
def alphaClear : Nat := 10

/-- Aspect-ratio lower bound: source constant `MIN_SCREEN_RATIO = 1.3`. -/
def screenRatioMin : ℚ := 13 / 10

/-- Aspect-ratio upper bound: source constant `MAX_SCREEN_RATIO = 2.5`. -/
def screenRatioMax : ℚ := 5 / 2

/-- Coverage lower bound: source constant `MIN_MASK_COVERAGE = 0.5`. -/
def maskCoverageMin : ℚ := 1 / 2

/-- Coverage upper bound: source constant `MAX_MASK_COVERAGE = 0.9`. -/
def maskCoverageMax : ℚ := 9 / 10

/-- Minimum region size: source constant `MIN_REGION_AREA = 5000`. -/
def minRegionArea : Nat := 5000

/-- Images and masks: row-major grids of naturals (numpy 2-D uint8/int arrays). -/
abbrev Grid := List (List Nat)

/-- Array access `g[r][c]`, defaulting to `0` outside the stored entries. -/
def cell (g : Grid) (r c : Nat) : Nat := (g.getD r []).getD c 0

/-- The grid is a rectangular `H × W` array (the numpy shape invariant). -/
def Rect (g : Grid) (H W : Nat) : Prop :=
  g.length = H ∧ ∀ row ∈ g, row.length = W

instance (g : Grid) (H W : Nat) : Decidable (Rect g H W) :=
  decidable_of_iff (g.length = H ∧ ∀ row ∈ g, row.length = W) Iff.rfl

/-- Coordinates `(row, col)` of the cells whose value satisfies `p`, in row-major
scan order — the embedding of `np.where` on a rectangular array. -/
def coordsWhere (g : Grid) (p : Nat → Bool) : List (Nat × Nat) :=
  (List.range g.length).flatMap fun r =>
    (List.range ((g.getD r []).length)).filterMap fun c =>
      if p (cell g r c) then some (r, c) else none

/-- Coordinates of the pixels carrying label `l` (`np.where(labeled_array == label)`). -/
def coordsOf (g : Grid) (l : Nat) : List (Nat × Nat) :=
  coordsWhere g (fun v => v == l)

/-- Pixel count of the region labelled `l`: `np.count_nonzero(region_mask)` in
`_select_screen_candidate`. -/
def area (g : Grid) (l : Nat) : Nat := (coordsOf g l).length

/-- Minimum of a list of naturals, `0` on the empty list (`ndarray.min` is only
called on nonempty index sets in the source). -/
def minL : List Nat → Nat
  | [] => 0
  | x :: xs => xs.foldl Nat.min x

/-- Maximum of a list of naturals, `0` on the empty list. -/
def maxL : List Nat → Nat
  | [] => 0
  | x :: xs => xs.foldl Nat.max x

/-- Border test of `_select_screen_candidate` (lines 177-179): the region with
label `l` has a pixel in row `0`, row `H-1`, column `0` or column `W-1`
(`region_mask[0,:].any() or region_mask[-1,:].any() or ...`). -/
def touchesBorder (g : Grid) (l : Nat) : Bool :=
  (g.getD 0 []).contains l ||
  (g.getD (g.length - 1) []).contains l ||
  g.any (fun row => row.getD 0 0 == l) ||
  g.any (fun row => row.getD (row.length - 1) 0 == l)

/-- Bounding-box height of region `l`: `max_row - min_row + 1` (line 196). -/
def bboxHeight (g : Grid) (l : Nat) : Nat :=
  maxL ((coordsOf g l).map Prod.fst) - minL ((coordsOf g l).map Prod.fst) + 1

/-- Bounding-box width of region `l`: `max_col - min_col + 1` (line 197). -/
def bboxWidth (g : Grid) (l : Nat) : Nat :=
  maxL ((coordsOf g l).map Prod.snd) - minL ((coordsOf g l).map Prod.snd) + 1

/-- Aspect ratio of region `l`'s bounding box (line 202):
`max(region_height, region_width) / min(region_height, region_width)`. -/
def aspectOf (g : Grid) (l : Nat) : ℚ :=
  ((max (bboxHeight g l) (bboxWidth g l) : Nat) : ℚ) /
    ((min (bboxHeight g l) (bboxWidth g l) : Nat) : ℚ)

/-- One iteration of the candidate filter in `_select_screen_candidate`
(lines 174-206): the label survives every `continue` and is appended to
`candidates`.  The conjuncts are, in source order: no border contact, area at
least `MIN_REGION_AREA`, a nonempty pixel set (`len(rows) == 0` guard),
non-degenerate bounding box, and aspect ratio within
`[MIN_SCREEN_RATIO, MAX_SCREEN_RATIO]`. -/
def isCandidate (g : Grid) (l : Nat) : Bool :=
  !(touchesBorder g l) &&
  decide (minRegionArea ≤ area g l) &&
  !((coordsOf g l).isEmpty) &&
  decide (bboxHeight g l ≠ 0) &&
  decide (bboxWidth g l ≠ 0) &&
  decide (screenRatioMin ≤ aspectOf g l) &&
  decide (aspectOf g l ≤ screenRatioMax)

/-- The positive labels occurring in the array, in increasing order: the loop
`for label in np.unique(labeled_array)` with the `label == 0` skip
(`np.unique` returns sorted distinct values). -/
def uniqueLabels (g : Grid) : List Nat :=
  (List.range (maxL g.flatten + 1)).filter fun l => decide (l ≠ 0) && g.flatten.contains l

/-- The `candidates` list of `_select_screen_candidate`, as the labels that
survive the filter, in enumeration (= increasing label) order. -/
def candidates (g : Grid) : List Nat :=
  (uniqueLabels g).filter fun l => isCandidate g l

/-- Comparison step of the selection: keep the earlier element `l` unless the
best of the rest strictly beats it on `A` — exactly the tie behaviour of a
stable descending sort. -/
def pickBetter (A : Nat → Nat) (l : Nat) : Option Nat → Nat
  | none => l
  | some b => if A l < A b then b else l

/-- Head of the stable descending sort by `A`:
`candidates.sort(key=lambda x: x[1], reverse=True)` followed by
`candidates[0]` (lines 213-215).  Python's sort is stable, so the head is the
first-encountered element attaining the maximal `A`; this function computes
exactly that element, keeping the earlier one on ties. -/
def pickBest (A : Nat → Nat) : List Nat → Option Nat
  | [] => none
  | l :: ls => some (pickBetter A l (pickBest A ls))

/-- The screen-candidate selector `_select_screen_candidate` (lines 156-218):
`None` when no region survives the filter, otherwise the largest-area
candidate with ties broken by enumeration order. -/
def selectScreenCandidate (g : Grid) : Option Nat :=
  pickBest (area g) (candidates g)

/-- Screen region bounding box, the `ScreenBounds` dataclass of the source. -/
structure ScreenBounds where
  x : Nat
  y : Nat
  width : Nat
  height : Nat
deriving DecidableEq

/-- Coordinates of the strictly positive cells: `np.where(mask > 0)`. -/
def posCoords (m : Grid) : List (Nat × Nat) :=
  coordsWhere m (fun v => decide (0 < v))

/-- The bounds extractor `_extract_bounds` (lines 220-234): min/max of the
column and row indices of the positive cells. -/
def extractBounds (m : Grid) : ScreenBounds :=
  { x := minL ((posCoords m).map Prod.snd)
    y := minL ((posCoords m).map Prod.fst)
    width := maxL ((posCoords m).map Prod.snd) - minL ((posCoords m).map Prod.snd) + 1
    height := maxL ((posCoords m).map Prod.fst) - minL ((posCoords m).map Prod.fst) + 1 }

/-- The binary region image `(labeled_array == screen_label).astype(np.uint8)`
(line 112). -/
def regionBinary (g : Grid) (l : Nat) : Grid :=
  g.map fun row => row.map fun v => if v = l then 1 else 0

/-- The boolean image `labeled_array == screen_label` viewed as a predicate on
signed coordinates, false outside the array — this matches scipy's
`border_value=0` convention for `binary_erosion`/`binary_dilation`. -/
def regionAt (g : Grid) (l : Nat) (r c : Int) : Bool :=
  decide (0 ≤ r) && decide (0 ≤ c) && (cell g r.toNat c.toNat == l)

/-- The default scipy structuring element for a 2-D array: the 3×3 cross
(connectivity 1), given as offsets. -/
def crossOffsets : List (Int × Int) :=
  [(0, 0), (-1, 0), (1, 0), (0, -1), (0, 1)]

/-- `scipy.ndimage.binary_erosion(X, iterations=1)` at one pixel: every pixel
of the structuring element centred there is set (out-of-image pixels count as
`0`, the scipy default `border_value=0`). -/
def binErosion (X : Int → Int → Bool) (r c : Int) : Bool :=
  crossOffsets.all fun o => X (r + o.1) (c + o.2)

/-- `scipy.ndimage.binary_dilation(X, iterations=1)` at one pixel: some pixel
of the (symmetric) structuring element centred there is set. -/
def binDilation (X : Int → Int → Bool) (r c : Int) : Bool :=
  crossOffsets.any fun o => X (r + o.1) (c + o.2)

/-- The mask generator `_generate_screen_mask` (lines 236-264): erode the
selected region once, dilate once, and write `255` at the pixels of the result
into a fresh `H × W` zero image. -/
def generateScreenMask (g : Grid) (l : Nat) (W H : Nat) : Grid :=
  (List.range H).map fun (r : Nat) =>
    (List.range W).map fun (c : Nat) =>
      if binDilation (binErosion (regionAt g l)) (r : Int) (c : Int) then 255 else 0

/-- Count of nonzero mask pixels: `np.count_nonzero(mask)` (line 276). -/
def maskArea (mask : Grid) : Nat :=
  (mask.flatten.filter fun v => decide (v ≠ 0)).length

/-- Count of mask pixels equal to `255`; on well-formed masks (values in
`{0, 255}`) this agrees with `maskArea`. -/
def mask255Count (mask : Grid) : Nat :=
  (mask.flatten.filter fun v => v == 255).length

/-- Coverage ratio `mask_area / frame_area` (line 277), as an exact rational. -/
def coverage (mask : Grid) (W H : Nat) : ℚ :=
  (maskArea mask : ℚ) / ((W * H : Nat) : ℚ)

/-- The coverage check of `_validate` (lines 280-282):
`MIN_MASK_COVERAGE <= coverage <= MAX_MASK_COVERAGE`, inclusive on both ends. -/
def coverageOK (mask : Grid) (W H : Nat) : Bool :=
  decide (maskCoverageMin ≤ coverage mask W H) &&
  decide (coverage mask W H ≤ maskCoverageMax)

/-- The edge check of `_validate` (lines 285-288): some nonzero pixel on
row `0`, row `H-1`, column `0` or column `W-1`. -/
def maskTouchesEdges (mask : Grid) : Bool :=
  (mask.getD 0 []).any (fun v => decide (v ≠ 0)) ||
  (mask.getD (mask.length - 1) []).any (fun v => decide (v ≠ 0)) ||
  mask.any (fun row => decide (row.getD 0 0 ≠ 0)) ||
  mask.any (fun row => decide (row.getD (row.length - 1) 0 ≠ 0))

/-- The containment check of `_validate` (lines 295-306): when the mask is
nonempty, compare the min/max positive-pixel coordinates against the bounds,
with `<=` against `bounds.x + bounds.width` and `bounds.y + bounds.height`
exactly as in the source. -/
def boundsContainmentOK (mask : Grid) (b : ScreenBounds) : Bool :=
  if (posCoords mask).isEmpty then true
  else
    decide (b.x ≤ minL ((posCoords mask).map Prod.snd)) &&
    decide (maxL ((posCoords mask).map Prod.snd) ≤ b.x + b.width) &&
    decide (b.y ≤ minL ((posCoords mask).map Prod.fst)) &&
    decide (maxL ((posCoords mask).map Prod.fst) ≤ b.y + b.height)

/-- The validator `_validate` (lines 266-309): coverage in range, no edge
contact, nonempty mask, and bounds containment, in source order. -/
def validate (mask : Grid) (W H : Nat) (b : ScreenBounds) : Bool :=
  coverageOK mask W H &&
  !(maskTouchesEdges mask) &&
  decide (maskArea mask ≠ 0) &&
  boundsContainmentOK mask b

/-- `np.clip(q, lo, hi)` on a scalar. -/
def clipQ (q lo hi : ℚ) : ℚ := min (max q lo) hi

/-- `alpha.max()`: the maximum alpha value over the whole channel. -/
def maxAlpha (alpha : Grid) : Nat := maxL alpha.flatten

/-- One pixel of `_load_and_normalize` line 152 in the `alpha.max() > 0`
branch: `np.clip(a * 255 / amax, 0, 255).astype(np.uint8)`.  The `astype`
conversion truncates toward zero; the clipped value is nonnegative, so this is
the floor.  (float32 rounding of `a * 255 / amax` never crosses an integer for
8-bit inputs: the quotient is at least `1/255` away from any integer it does
not hit exactly, far above the float32 ulp at 255.) -/
def normalizeAlphaVal (amax a : Nat) : Nat :=
  Nat.floor (clipQ ((255 * (a : ℚ)) / (amax : ℚ)) 0 255)

/-- The spec's wording of the same map, for comparison (claims rounding to the
nearest integer rather than truncation). -/
def normalizeAlphaValRounded (amax a : Nat) : Nat :=
  (round (clipQ ((255 * (a : ℚ)) / (amax : ℚ)) 0 255)).toNat

/-- The alpha normalizer of `_load_and_normalize` (line 152): when
`alpha.max() == 0` the channel passes through unchanged (the source clips the
all-zero array to `[0, 255]` and converts back to uint8, an identity);
otherwise every value is rescaled by `255 / alpha.max()`. -/
def normalizeAlpha (alpha : Grid) : Grid :=
  if maxAlpha alpha = 0 then alpha
  else alpha.map fun row => row.map fun a => normalizeAlphaVal (maxAlpha alpha) a

/-- Frame width `alpha.shape[1]` (line 90). -/
def gridW (g : Grid) : Nat := (g.getD 0 []).length

/-- Frame height `alpha.shape[0]` (line 90). -/
def gridH (g : Grid) : Nat := g.length

/-- The persisted template record, the `FrameTemplate` dataclass of the
source (`frameSize` flattened into its width and height members). -/
structure FrameTemplate where
  frame : String
  mask : String
  screen : ScreenBounds
  sizeW : Nat
  sizeH : Nat
deriving DecidableEq

/-- Filesystem effects of the processor, as data.  `mkdirParents` is the
`output_path.mkdir(parents=True, exist_ok=True)` of `__init__`; the three
writes are the artifacts of `_save_outputs`; `removeDir` is never emitted by
any function of this development — it exists so that the absence of rollback
is expressible. -/
inductive FSOp (α : Type) where
  | mkdirParents : FSOp α
  | removeDir : FSOp α
  | writeFrame (img : α) : FSOp α
  | writeMask (mask : Grid) : FSOp α
  | writeTemplate (t : FrameTemplate) : FSOp α
deriving DecidableEq

/-- The emitter `_save_outputs` (lines 311-347): write `frame.png`,
`mask.png`, then `template.json` with the bounds and the frame size. -/
def saveOutputs {α : Type} (img : α) (mask : Grid) (b : ScreenBounds) (W H : Nat) :
    List (FSOp α) :=
  [FSOp.writeFrame img, FSOp.writeMask mask,
   FSOp.writeTemplate { frame := "frame.png", mask := "mask.png",
                        screen := b, sizeW := W, sizeH := H }]

/-- The per-frame pipeline `process` (lines 85-137), from the point where the
decoded image, normalized alpha channel and labeled transparent-region array
are in hand: select a candidate (`None` ⇒ report failure and write nothing),
extract bounds from the original region, generate the smoothed mask, validate
(failure ⇒ report failure and write nothing), else emit the three artifacts.
Returns the success flag together with the filesystem writes performed. -/
def processFrame {α : Type} (img : α) (alpha lab : Grid) : Bool × List (FSOp α) :=
  match selectScreenCandidate lab with
  | none => (false, [])
  | some l =>
    let b := extractBounds (regionBinary lab l)
    let m := generateScreenMask lab l (gridW alpha) (gridH alpha)
    if validate m (gridW alpha) (gridH alpha) b then
      (true, saveOutputs img m b (gridW alpha) (gridH alpha))
    else (false, [])

/-- A full `DeviceFrameProcessor` lifetime on one frame: `__init__` creates
the output directory (lines 80-83) before `process` runs, so the directory
creation precedes every other effect. -/
def processorRun {α : Type} (img : α) (alpha lab : Grid) : Bool × List (FSOp α) :=
  ((processFrame img alpha lab).1,
    FSOp.mkdirParents :: (processFrame img alpha lab).2)

/-- One iteration of the batch loop of `find_and_process_frames`
(lines 365-369): bump the processed or the failed counter according to the
frame's outcome. -/
def batchStep {α : Type} (acc : Nat × Nat) (f : α × Grid × Grid) : Nat × Nat :=
  if (processFrame f.1 f.2.1 f.2.2).1 then (acc.1 + 1, acc.2) else (acc.1, acc.2 + 1)

/-- The batch loop of `find_and_process_frames` (lines 350-373): fold over the
discovered frames, counting processed and failed ones. -/
def runBatch {α : Type} (frames : List (α × Grid × Grid)) : Nat × Nat :=
  frames.foldl batchStep (0, 0)

/-- Contract of the external `scipy.ndimage.label` call (Region Labeler,
spec §4.2), restricted to what the claims need: the label array has the shape
of the alpha channel, and a pixel carries a nonzero label exactly when it is
transparent (`alpha <= ALPHA_CLEAR`). -/
def IsLabelingOf (alpha lab : Grid) : Prop :=
  lab.length = alpha.length ∧
  (∀ r, r < lab.length → (lab.getD r []).length = (alpha.getD r []).length) ∧
  ∀ r c, r < lab.length → c < (lab.getD r []).length →
    (cell lab r c ≠ 0 ↔ cell alpha r c ≤ alphaClear)

/-- Concrete 10×10 mask: 255 on rows 1-8, columns 1-7, zero elsewhere.  Its
coverage is 56/100 and it keeps clear of every border, but its rightmost
marked column (7) and lowest marked row (8) sit exactly at
`bounds.x + bounds.width` and `bounds.y + bounds.height` for the bounds
below. -/
def offByOneMask : Grid :=
  List.replicate 10 0 ::
    (List.replicate 8 (0 :: (List.replicate 7 255 ++ [0, 0])) ++ [List.replicate 10 0])

/-- Bounds paired with `offByOneMask`: the half-open box `[1,7) × [1,8)`. -/
def offByOneBounds : ScreenBounds := ⟨1, 1, 6, 7⟩

/-- Concrete 5×5 labeled array whose label-1 region is the centre 3×3 block. -/
def blockFrame : Grid :=
  [[0, 0, 0, 0, 0],
   [0, 1, 1, 1, 0],
   [0, 1, 1, 1, 0],
   [0, 1, 1, 1, 0],
   [0, 0, 0, 0, 0]]

/-! Helper lemmas about the fold-based minima and maxima. -/

theorem foldlMin_le_init (xs : List Nat) : ∀ a : Nat, xs.foldl Nat.min a ≤ a := by
  induction xs with
  | nil => intro a; simp
  | cons x xs ih =>
    intro a
    exact le_trans (ih (Nat.min a x)) (Nat.min_le_left a x)

theorem foldlMin_le_mem (xs : List Nat) : ∀ a x : Nat, x ∈ xs → xs.foldl Nat.min a ≤ x := by
  induction xs with
  | nil => intro a x hx; simp at hx
  | cons y ys ih =>
    intro a x hx
    rcases List.mem_cons.mp hx with h | h
    · subst h
      exact le_trans (foldlMin_le_init ys (Nat.min a x)) (Nat.min_le_right a x)
    · exact ih (Nat.min a y) x h

theorem foldlMin_cases (xs : List Nat) :
    ∀ a : Nat, xs.foldl Nat.min a = a ∨ xs.foldl Nat.min a ∈ xs := by
  induction xs with
  | nil => intro a; left; rfl
  | cons y ys ih =>
    intro a
    have hmin : Nat.min a y = a ∨ Nat.min a y = y := by
      rcases Nat.le_total a y with h2 | h2
      · left; exact Nat.min_eq_left h2
      · right; exact Nat.min_eq_right h2
    rcases ih (Nat.min a y) with h | h
    · rcases hmin with h2 | h2
      · left; simpa [h2] using h
      · right; rw [List.foldl_cons, h, h2]; exact List.mem_cons_self y ys
    · right; exact List.mem_cons_of_mem y h

theorem foldlMax_init_le (xs : List Nat) : ∀ a : Nat, a ≤ xs.foldl Nat.max a := by
  induction xs with
  | nil => intro a; simp
  | cons x xs ih =>
    intro a
    exact le_trans (Nat.le_max_left a x) (ih (Nat.max a x))

theorem foldlMax_mem_le (xs : List Nat) : ∀ a x : Nat, x ∈ xs → x ≤ xs.foldl Nat.max a := by
  induction xs with
  | nil => intro a x hx; simp at hx
  | cons y ys ih =>
    intro a x hx
    rcases List.mem_cons.mp hx with h | h
    · subst h
      exact le_trans (Nat.le_max_right a x) (foldlMax_init_le ys (Nat.max a x))
    · exact ih (Nat.max a y) x h

theorem foldlMax_cases (xs : List Nat) :
    ∀ a : Nat, xs.foldl Nat.max a = a ∨ xs.foldl Nat.max a ∈ xs := by
  induction xs with
  | nil => intro a; left; rfl
  | cons y ys ih =>
    intro a
    have hmax : Nat.max a y = a ∨ Nat.max a y = y := by
      rcases Nat.le_total a y with h2 | h2
      · right; exact Nat.max_eq_right h2
      · left; exact Nat.max_eq_left h2
    rcases ih (Nat.max a y) with h | h
    · rcases hmax with h2 | h2
      · left; simpa [h2] using h
      · right; rw [List.foldl_cons, h, h2]; exact List.mem_cons_self y ys
    · right; exact List.mem_cons_of_mem y h

theorem minL_le {x : Nat} {xs : List Nat} (h : x ∈ xs) : minL xs ≤ x := by
  cases xs with
  | nil => simp at h
  | cons y ys =>
    rcases List.mem_cons.mp h with h2 | h2
    · subst h2; exact foldlMin_le_init ys x
    · exact foldlMin_le_mem ys y x h2

theorem le_maxL {x : Nat} {xs : List Nat} (h : x ∈ xs) : x ≤ maxL xs := by
  cases xs with
  | nil => simp at h
  | cons y ys =>
    rcases List.mem_cons.mp h with h2 | h2
    · subst h2; exact foldlMax_init_le ys x
    · exact foldlMax_mem_le ys y x h2

theorem minL_mem {xs : List Nat} (h : xs ≠ []) : minL xs ∈ xs := by
  cases xs with
  | nil => exact absurd rfl h
  | cons y ys =>
    rcases foldlMin_cases ys y with h2 | h2
    · rw [minL, h2]; exact List.mem_cons_self y ys
    · exact List.mem_cons_of_mem y h2

theorem maxL_mem {xs : List Nat} (h : xs ≠ []) : maxL xs ∈ xs := by
  cases xs with
  | nil => exact absurd rfl h
  | cons y ys =>
    rcases foldlMax_cases ys y with h2 | h2
    · rw [maxL, h2]; exact List.mem_cons_self y ys
    · exact List.mem_cons_of_mem y h2

theorem minL_le_maxL {xs : List Nat} (h : xs ≠ []) : minL xs ≤ maxL xs :=
  minL_le (maxL_mem h)

/-! Helper lemmas about grid access and pixel-coordinate lists. -/

theorem getD_mem_of_lt {α : Type} {l : List α} {n : Nat} (d : α) (h : n < l.length) :
    l.getD n d ∈ l := by
  rw [List.getD_eq_getElem l d h]
  exact List.getElem_mem h

theorem mem_coordsWhere {g : Grid} {p : Nat → Bool} {r c : Nat} :
    (r, c) ∈ coordsWhere g p ↔
      r < g.length ∧ c < (g.getD r []).length ∧ p (cell g r c) = true := by
  simp only [coordsWhere, List.mem_flatMap, List.mem_filterMap, List.mem_range]
  constructor
  · rintro ⟨r', hr', c', hc', h⟩
    split at h
    · rcases Option.some.inj h with h2
      obtain ⟨rfl, rfl⟩ : r' = r ∧ c' = c := Prod.mk.inj h2
      exact ⟨hr', hc', by assumption⟩
    · exact absurd h (by simp)
  · rintro ⟨hr, hc, hp⟩
    exact ⟨r, hr, c, hc, by rw [if_pos hp]⟩

theorem rect_row_length {g : Grid} {H W r : Nat} (hg : Rect g H W) (hr : r < H) :
    (g.getD r []).length = W := by
  have hlen : r < g.length := by rw [hg.1]; exact hr
  exact hg.2 (g.getD r []) (getD_mem_of_lt [] hlen)

theorem cell_value_mem_row {g : Grid} {r c : Nat} (hc : c < (g.getD r []).length) :
    cell g r c ∈ g.getD r [] :=
  getD_mem_of_lt 0 hc

/-! Helper lemmas about the selector. -/

theorem pickBest_eq_none {A : Nat → Nat} {ls : List Nat} :
    pickBest A ls = none ↔ ls = [] := by
  cases ls with
  | nil => simp [pickBest]
  | cons l tl => simp [pickBest]

theorem pickBest_sound {A : Nat → Nat} :
    ∀ {ls : List Nat}, ls.Pairwise (· < ·) → ∀ {b : Nat}, pickBest A ls = some b →
      b ∈ ls ∧ ∀ x ∈ ls, A x ≤ A b ∧ (A x = A b → b ≤ x) := by
  intro ls
  induction ls with
  | nil => intro _ b h; simp [pickBest] at h
  | cons l tl ih =>
    intro hp b hb
    have hhead : ∀ x ∈ tl, l < x := (List.pairwise_cons.mp hp).1
    have hptl : tl.Pairwise (· < ·) := (List.pairwise_cons.mp hp).2
    rw [pickBest] at hb
    cases htl : pickBest A tl with
    | none =>
      have htlnil : tl = [] := pickBest_eq_none.mp htl
      subst htlnil
      rw [htl, pickBetter] at hb
      rcases Option.some.inj hb with rfl
      refine ⟨List.mem_cons_self l [], ?_⟩
      intro x hx
      rcases List.mem_cons.mp hx with rfl | hx2
      · exact ⟨le_refl _, fun _ => le_refl _⟩
      · simp at hx2
    | some bb =>
      rw [htl, pickBetter] at hb
      obtain ⟨hmem, hmax⟩ := ih hptl htl
      by_cases hlt : A l < A bb
      · rw [if_pos hlt] at hb
        rcases Option.some.inj hb with rfl
        refine ⟨List.mem_cons_of_mem l hmem, ?_⟩
        intro x hx
        rcases List.mem_cons.mp hx with rfl | hx2
        · exact ⟨le_of_lt hlt, fun he => absurd he (ne_of_lt hlt)⟩
        · exact hmax x hx2
      · rw [if_neg hlt] at hb
        rcases Option.some.inj hb with rfl
        have hble : A bb ≤ A l := le_of_not_lt hlt
        refine ⟨List.mem_cons_self l tl, ?_⟩
        intro x hx
        rcases List.mem_cons.mp hx with rfl | hx2
        · exact ⟨le_refl _, fun _ => le_refl _⟩
        · exact ⟨le_trans (hmax x hx2).1 hble, fun _ => le_of_lt (hhead x hx2)⟩

theorem mem_uniqueLabels {g : Grid} {l : Nat} :
    l ∈ uniqueLabels g ↔ l ≠ 0 ∧ l ∈ g.flatten := by
  simp only [uniqueLabels, List.mem_filter, List.mem_range, Bool.and_eq_true,
    decide_eq_true_eq, List.elem_iff]
  constructor
  · rintro ⟨_, h⟩; exact h
  · rintro ⟨h0, hmem⟩
    exact ⟨Nat.lt_succ_of_le (le_maxL hmem), h0, hmem⟩

theorem uniqueLabels_pairwise (g : Grid) : (uniqueLabels g).Pairwise (· < ·) :=
  List.Pairwise.sublist (List.filter_sublist _) (List.pairwise_lt_range _)

theorem candidates_pairwise (g : Grid) : (candidates g).Pairwise (· < ·) :=
  List.Pairwise.sublist (List.filter_sublist _) (uniqueLabels_pairwise g)

theorem mem_candidates {g : Grid} {l : Nat} :
    l ∈ candidates g ↔ l ∈ uniqueLabels g ∧ isCandidate g l = true := by
  simp [candidates, List.mem_filter]

/-- C1: the screen-candidate selector returns a label `l` exactly when `l` is a
positive label occurring in the array that passes every geometric filter
(`isCandidate` bundles, in source order: touches none of the four image
borders, pixel area at least `MIN_REGION_AREA = 5000`, nonempty pixel set,
non-degenerate bounding box, and bounding-box aspect ratio inside
`[1.3, 2.5]`), and `l`'s area dominates the area of every other surviving
candidate, ties going to the smaller (= first-enumerated) label.  Moreover a
border-touching region is never selected regardless of its other metrics, and
when no candidate survives the selector reports failure with `none`. -/
theorem selector_characterization (g : Grid) :
    (∀ l, selectScreenCandidate g = some l ↔
        l ∈ uniqueLabels g ∧ isCandidate g l = true ∧
          ∀ x, x ∈ uniqueLabels g → isCandidate g x = true →
            area g x ≤ area g l ∧ (area g x = area g l → l ≤ x)) ∧
    (∀ l, touchesBorder g l = true → selectScreenCandidate g ≠ some l) ∧
    (candidates g = [] → selectScreenCandidate g = none) := by
  have hpair := candidates_pairwise g
  have hiff : ∀ l, selectScreenCandidate g = some l ↔
      l ∈ uniqueLabels g ∧ isCandidate g l = true ∧
        ∀ x, x ∈ uniqueLabels g → isCandidate g x = true →
          area g x ≤ area g l ∧ (area g x = area g l → l ≤ x) := by
    intro l
    constructor
    · intro h
      obtain ⟨hmem, hmax⟩ := pickBest_sound hpair h
      obtain ⟨hu, hc⟩ := mem_candidates.mp hmem
      exact ⟨hu, hc, fun x hxu hxc => hmax x (mem_candidates.mpr ⟨hxu, hxc⟩)⟩
    · rintro ⟨hu, hc, hmax⟩
      have hlc : l ∈ candidates g := mem_candidates.mpr ⟨hu, hc⟩
      cases hse : selectScreenCandidate g with
      | none =>
        have : candidates g = [] := pickBest_eq_none.mp hse
        rw [this] at hlc
        simp at hlc
      | some m =>
        obtain ⟨hm, hmmax⟩ := pickBest_sound hpair hse
        obtain ⟨hmu, hmc⟩ := mem_candidates.mp hm
        have h1 : area g l ≤ area g m := (hmmax l hlc).1
        have h2 : area g m ≤ area g l := (hmax m hmu hmc).1
        have he : area g m = area g l := le_antisymm h2 h1
        have hml : m ≤ l := (hmmax l hlc).2 he.symm
        have hlm : l ≤ m := (hmax m hmu hmc).2 he
        rw [le_antisymm hlm hml]
  refine ⟨hiff, ?_, ?_⟩
  · intro l hb hsel
    have hc : isCandidate g l = true := ((hiff l).mp hsel).2.1
    simp only [isCandidate, Bool.and_eq_true, Bool.not_eq_true'] at hc
    rw [hc.1.1.1.1.1.1] at hb
    exact Bool.false_ne_true hb
  · intro hnil
    unfold selectScreenCandidate
    rw [hnil]
    rfl

/-- Witness for C1: on the all-background array no region survives the filter
and the selector reports failure. -/
theorem selector_characterization_witness :
    candidates [[0]] = [] ∧ selectScreenCandidate [[0]] = none :=
  ⟨by decide, (selector_characterization [[0]]).2.2 (by decide)⟩

/-- C2: the validator computes the coverage ratio as the count of marked mask
pixels over `frame_width * frame_height`, and its coverage check passes
exactly when the ratio lies in the inclusive interval `[0.5, 0.9]`; a ratio
strictly below `0.5` or strictly above `0.9` forces the whole validation to
reject; and on well-formed masks (values in `{0, 255}`, the `ScreenMask` data
model) the nonzero count used by the source equals the count of 255-valued
pixels, so the ratio is exactly the claimed one. -/
theorem validator_coverage (mask : Grid) (W H : Nat) (b : ScreenBounds) :
    (coverageOK mask W H = true ↔
      maskCoverageMin ≤ coverage mask W H ∧ coverage mask W H ≤ maskCoverageMax) ∧
    ((coverage mask W H < maskCoverageMin ∨ maskCoverageMax < coverage mask W H) →
      validate mask W H b = false) ∧
    (validate mask W H b = true →
      maskCoverageMin ≤ coverage mask W H ∧ coverage mask W H ≤ maskCoverageMax) ∧
    ((∀ row ∈ mask, ∀ v ∈ row, v = 0 ∨ v = 255) →
      coverage mask W H = (mask255Count mask : ℚ) / ((W * H : Nat) : ℚ)) := by
  have hiff : coverageOK mask W H = true ↔
      maskCoverageMin ≤ coverage mask W H ∧ coverage mask W H ≤ maskCoverageMax := by
    simp [coverageOK, Bool.and_eq_true, decide_eq_true_eq]
  refine ⟨hiff, ?_, ?_, ?_⟩
  · intro h
    have hne : ¬ (coverageOK mask W H = true) := by
      rw [hiff]
      rintro ⟨h1, h2⟩
      rcases h with h3 | h3
      · exact absurd h1 (not_le.mpr h3)
      · exact absurd h2 (not_le.mpr h3)
    have hfalse : coverageOK mask W H = false := Bool.eq_false_iff.mpr hne
    simp [validate, hfalse]
  · intro hv
    have h1 : coverageOK mask W H = true := by
      simp only [validate, Bool.and_eq_true] at hv
      exact hv.1.1.1
    exact hiff.mp h1
  · intro hwf
    have harea : maskArea mask = mask255Count mask := by
      unfold maskArea mask255Count
      congr 1
      apply List.filter_congr
      intro v hv
      rcases List.mem_flatten.mp hv with ⟨row, hrow, hvr⟩
      rcases hwf row hrow v hvr with rfl | rfl <;> rfl
    unfold coverage
    rw [harea]

/-- Witness for C2: a full-coverage 1×1 mask has ratio 1, above the inclusive
upper bound, and the validator rejects it; on a well-formed mask the ratio is
computed from the 255-count. -/
theorem validator_coverage_witness :
    validate [[255]] 1 1 ⟨0, 0, 1, 1⟩ = false ∧
    coverage [[255, 0]] 2 1 = (mask255Count [[255, 0]] : ℚ) / ((2 * 1 : Nat) : ℚ) := by
  constructor
  · apply (validator_coverage [[255]] 1 1 ⟨0, 0, 1, 1⟩).2.1
    right
    have h1 : maskArea [[255]] = 1 := rfl
    unfold coverage maskCoverageMax
    rw [h1]
    norm_num
  · exact (validator_coverage [[255, 0]] 2 1 ⟨0, 0, 1, 1⟩).2.2.2 (by decide)

set_option maxRecDepth 10000 in
/-- C3 (divergence of the source from its stated containment): `_validate`
compares the maximal marked column against `bounds.x + bounds.width` and the
maximal marked row against `bounds.y + bounds.height` with `<=`, so a mask
whose rightmost 255 pixel sits exactly at column `bounds.x + bounds.width` —
outside the half-open box, not enclosed by the bounds — still passes the whole
validation.  On the concrete 10×10 mask the validator accepts although pixel
`(1, 7)` lies at column `offByOneBounds.x + offByOneBounds.width = 7` and
pixel `(8, 1)` lies at row `offByOneBounds.y + offByOneBounds.height = 8`. -/
theorem validator_containment_off_by_one :
    validate offByOneMask 10 10 offByOneBounds = true ∧
    cell offByOneMask 1 7 = 255 ∧
    offByOneBounds.x + offByOneBounds.width = 7 ∧
    cell offByOneMask 8 1 = 255 ∧
    offByOneBounds.y + offByOneBounds.height = 8 := by
  refine ⟨?_, by decide, by decide, by decide, by decide⟩
  have h1 : maskArea offByOneMask = 56 := by decide
  have hlo : maskCoverageMin ≤ coverage offByOneMask 10 10 := by
    unfold coverage maskCoverageMin
    rw [h1]
    norm_num
  have hhi : coverage offByOneMask 10 10 ≤ maskCoverageMax := by
    unfold coverage maskCoverageMax
    rw [h1]
    norm_num
  have hcov : coverageOK offByOneMask 10 10 = true := by
    unfold coverageOK
    rw [decide_eq_true hlo, decide_eq_true hhi]
    rfl
  unfold validate
  rw [hcov, Bool.true_and]
  decide

/-! Helper lemmas for the morphological opening and the generated mask. -/

theorem filterMap_congr_local {α β : Type} {l : List α} {f h : α → Option β}
    (he : ∀ a ∈ l, f a = h a) : l.filterMap f = l.filterMap h := by
  induction l with
  | nil => rfl
  | cons a tl ih =>
    rw [List.filterMap_cons, List.filterMap_cons, he a (List.mem_cons_self a tl),
      ih fun x hx => he x (List.mem_cons_of_mem a hx)]

theorem opening_subset (X : Int → Int → Bool) (r c : Int)
    (h : binDilation (binErosion X) r c = true) : X r c = true := by
  simp only [binDilation, List.any_eq_true] at h
  obtain ⟨o, ho, he⟩ := h
  simp only [binErosion, List.all_eq_true] at he
  have hx : ∀ dr dc : Int, (dr, dc) ∈ crossOffsets →
      X (r + o.1 + dr) (c + o.2 + dc) = true := fun dr dc hm => he (dr, dc) hm
  simp only [crossOffsets, List.mem_cons, List.not_mem_nil, or_false] at ho
  rcases ho with rfl | rfl | rfl | rfl | rfl
  · simpa using hx 0 0 (by simp [crossOffsets])
  · have h2 := hx 1 0 (by simp [crossOffsets])
    have e : r + (-1 : Int) + 1 = r := by ring
    simpa [e] using h2
  · have h2 := hx (-1) 0 (by simp [crossOffsets])
    have e : r + (1 : Int) + (-1) = r := by ring
    simpa [e] using h2
  · have h2 := hx 0 1 (by simp [crossOffsets])
    have e : c + (-1 : Int) + 1 = c := by ring
    simpa [e] using h2
  · have h2 := hx 0 (-1) (by simp [crossOffsets])
    have e : c + (1 : Int) + (-1) = c := by ring
    simpa [e] using h2

theorem cell_generateScreenMask (g : Grid) (l W H r c : Nat) :
    cell (generateScreenMask g l W H) r c =
      if r < H ∧ c < W ∧
          binDilation (binErosion (regionAt g l)) (r : Int) (c : Int) = true
      then 255 else 0 := by
  unfold cell generateScreenMask
  by_cases hr : r < H
  · have hr1 : r < ((List.range H).map fun (r : Nat) =>
        (List.range W).map fun (c : Nat) =>
          if binDilation (binErosion (regionAt g l)) (r : Int) (c : Int) then 255
          else 0).length := by
      rw [List.length_map, List.length_range]; exact hr
    rw [List.getD_eq_getElem _ _ hr1, List.getElem_map, List.getElem_range]
    by_cases hc : c < W
    · have hc1 : c < ((List.range W).map fun (c : Nat) =>
          if binDilation (binErosion (regionAt g l)) (r : Int) (c : Int) then 255
          else 0).length := by
        rw [List.length_map, List.length_range]; exact hc
      rw [List.getD_eq_getElem _ _ hc1, List.getElem_map, List.getElem_range]
      by_cases hd : binDilation (binErosion (regionAt g l)) (r : Int) (c : Int) = true
      · rw [if_pos hd, if_pos ⟨hr, hc, hd⟩]
      · rw [if_neg hd, if_neg fun h => hd h.2.2]
    · have hc2 : ((List.range W).map fun (c : Nat) =>
          if binDilation (binErosion (regionAt g l)) (r : Int) (c : Int) then 255
          else 0).length ≤ c := by
        rw [List.length_map, List.length_range]; exact le_of_not_lt hc
      rw [List.getD_eq_default _ _ hc2, if_neg fun h => hc h.2.1]
  · have hr2 : ((List.range H).map fun (r : Nat) =>
        (List.range W).map fun (c : Nat) =>
          if binDilation (binErosion (regionAt g l)) (r : Int) (c : Int) then 255
          else 0).length ≤ r := by
      rw [List.length_map, List.length_range]; exact le_of_not_lt hr
    rw [List.getD_eq_default _ _ hr2, if_neg fun h => hr h.1]
    rfl

theorem getD_map_map (f : Nat → Nat) (hf : f 0 = 0) (g : Grid) (r c : Nat) :
    cell (g.map fun row => row.map f) r c = f (cell g r c) := by
  simp only [cell, List.getD_eq_getElem?_getD, List.getElem?_map]
  cases g[r]? with
  | none => simp [hf]
  | some row =>
    simp only [Option.map_some', Option.getD_some, List.getElem?_map]
    cases row[c]? with
    | none => simp [hf]
    | some v => simp

theorem cell_regionBinary (g : Grid) (l : Nat) (hl : l ≠ 0) (r c : Nat) :
    cell (regionBinary g l) r c = if cell g r c = l then 1 else 0 := by
  unfold regionBinary
  exact getD_map_map _ (by rw [if_neg (Ne.symm hl)]) g r c

theorem posCoords_regionBinary (g : Grid) (l : Nat) (hl : l ≠ 0) :
    posCoords (regionBinary g l) = coordsOf g l := by
  unfold posCoords coordsOf coordsWhere
  have hlen : (regionBinary g l).length = g.length := List.length_map _ _
  rw [hlen]
  congr 1
  funext r
  have hrow : ((regionBinary g l).getD r []).length = (g.getD r []).length := by
    by_cases hr : r < g.length
    · rw [List.getD_eq_getElem _ _ (by simpa [regionBinary] using hr),
        List.getD_eq_getElem _ _ hr]
      unfold regionBinary
      rw [List.getElem_map, List.length_map]
    · rw [List.getD_eq_default _ _ (by simpa [regionBinary] using le_of_not_lt hr),
        List.getD_eq_default _ _ (le_of_not_lt hr)]
  rw [hrow]
  apply filterMap_congr_local
  intro c hc
  by_cases h : cell g r c = l <;> simp [cell_regionBinary g l hl, h]

/-- C4: every 255-valued pixel of the mask produced by `_generate_screen_mask`
(one erosion followed by one dilation with the same 3×3-cross structuring
element, a morphological opening) lies inside the half-open box of the
`ScreenBounds` extracted from the selected region — hence a fortiori inside
that bounding box dilated by the structuring-element radius — and, since the
selector rejected border-touching regions, never on the outer edge of the
frame.  The opening only removes pixels, so the mask is a subset of the
region itself. -/
theorem mask_generator_invariants (g : Grid) (l H W r c : Nat)
    (hg : Rect g H W) (hl : l ≠ 0) (hnb : touchesBorder g l = false)
    (hm : cell (generateScreenMask g l W H) r c = 255) :
    (extractBounds (regionBinary g l)).x ≤ c ∧
    c < (extractBounds (regionBinary g l)).x + (extractBounds (regionBinary g l)).width ∧
    (extractBounds (regionBinary g l)).y ≤ r ∧
    r < (extractBounds (regionBinary g l)).y + (extractBounds (regionBinary g l)).height ∧
    0 < r ∧ r + 1 < H ∧ 0 < c ∧ c + 1 < W := by
  rw [cell_generateScreenMask] at hm
  have hcond : r < H ∧ c < W ∧
      binDilation (binErosion (regionAt g l)) (r : Int) (c : Int) = true := by
    by_contra h
    rw [if_neg h] at hm
    exact absurd hm (by norm_num)
  obtain ⟨hr, hc, hdil⟩ := hcond
  have hreg : regionAt g l (r : Int) (c : Int) = true := opening_subset _ _ _ hdil
  have hcell : cell g r c = l := by
    simp only [regionAt, Bool.and_eq_true, decide_eq_true_eq, beq_iff_eq,
      Int.toNat_natCast] at hreg
    exact hreg.2
  have hrg : r < g.length := by rw [hg.1]; exact hr
  have hrowlen : (g.getD r []).length = W := rect_row_length hg hr
  have hmem : (r, c) ∈ coordsOf g l := by
    apply mem_coordsWhere.mpr
    exact ⟨hrg, by rw [hrowlen]; exact hc, by simp [hcell]⟩
  have hpos : posCoords (regionBinary g l) = coordsOf g l := posCoords_regionBinary g l hl
  have hcmem : c ∈ (posCoords (regionBinary g l)).map Prod.snd := by
    rw [hpos]; exact List.mem_map_of_mem Prod.snd hmem
  have hrmem : r ∈ (posCoords (regionBinary g l)).map Prod.fst := by
    rw [hpos]; exact List.mem_map_of_mem Prod.fst hmem
  have h1 : minL ((posCoords (regionBinary g l)).map Prod.snd) ≤ c := minL_le hcmem
  have h2 : c ≤ maxL ((posCoords (regionBinary g l)).map Prod.snd) := le_maxL hcmem
  have h3 : minL ((posCoords (regionBinary g l)).map Prod.snd) ≤
      maxL ((posCoords (regionBinary g l)).map Prod.snd) :=
    minL_le_maxL (List.ne_nil_of_mem hcmem)
  have h4 : minL ((posCoords (regionBinary g l)).map Prod.fst) ≤ r := minL_le hrmem
  have h5 : r ≤ maxL ((posCoords (regionBinary g l)).map Prod.fst) := le_maxL hrmem
  have h6 : minL ((posCoords (regionBinary g l)).map Prod.fst) ≤
      maxL ((posCoords (regionBinary g l)).map Prod.fst) :=
    minL_le_maxL (List.ne_nil_of_mem hrmem)
  have hr0 : 0 < r := by
    rcases Nat.eq_zero_or_pos r with rfl | h
    · exfalso
      have hmemrow : l ∈ g.getD 0 [] := by
        rw [← hcell]
        exact cell_value_mem_row (by rw [hrowlen]; exact hc)
      have ha : (g.getD 0 []).contains l = true := List.elem_iff.mpr hmemrow
      have hb : touchesBorder g l = true := by unfold touchesBorder; rw [ha]; simp
      rw [hnb] at hb
      exact Bool.false_ne_true hb
    · exact h
  have hrH : r + 1 < H := by
    by_cases h : r + 1 < H
    · exact h
    · exfalso
      have hre : r = H - 1 := by omega
      have hmemrow : l ∈ g.getD (g.length - 1) [] := by
        rw [hg.1, ← hre, ← hcell]
        exact cell_value_mem_row (by rw [hrowlen]; exact hc)
      have ha : (g.getD (g.length - 1) []).contains l = true := List.elem_iff.mpr hmemrow
      have hb : touchesBorder g l = true := by unfold touchesBorder; rw [ha]; simp
      rw [hnb] at hb
      exact Bool.false_ne_true hb
  have hc0 : 0 < c := by
    rcases Nat.eq_zero_or_pos c with rfl | h
    · exfalso
      have ha : (g.any fun row => row.getD 0 0 == l) = true := by
        apply List.any_eq_true.mpr
        refine ⟨g.getD r [], getD_mem_of_lt [] hrg, ?_⟩
        simp only [beq_iff_eq]
        exact hcell
      have hb : touchesBorder g l = true := by unfold touchesBorder; rw [ha]; simp
      rw [hnb] at hb
      exact Bool.false_ne_true hb
    · exact h
  have hcW : c + 1 < W := by
    by_cases h : c + 1 < W
    · exact h
    · exfalso
      have hce : c = W - 1 := by omega
      have ha : (g.any fun row => row.getD (row.length - 1) 0 == l) = true := by
        apply List.any_eq_true.mpr
        refine ⟨g.getD r [], getD_mem_of_lt [] hrg, ?_⟩
        rw [hrowlen, ← hce]
        simp only [beq_iff_eq]
        exact hcell
      have hb : touchesBorder g l = true := by unfold touchesBorder; rw [ha]; simp
      rw [hnb] at hb
      exact Bool.false_ne_true hb
  refine ⟨h1, ?_, h4, ?_, hr0, hrH, hc0, hcW⟩
  · simp only [extractBounds]
    omega
  · simp only [extractBounds]
    omega

set_option maxRecDepth 10000 in
/-- Witness for C4 at the concrete 5×5 block frame: the opening keeps the
centre pixel `(2, 2)`, which the theorem places inside the extracted box and
away from every border. -/
theorem mask_generator_invariants_witness :
    (extractBounds (regionBinary blockFrame 1)).x ≤ 2 ∧
    2 < (extractBounds (regionBinary blockFrame 1)).x +
          (extractBounds (regionBinary blockFrame 1)).width ∧
    (extractBounds (regionBinary blockFrame 1)).y ≤ 2 ∧
    2 < (extractBounds (regionBinary blockFrame 1)).y +
          (extractBounds (regionBinary blockFrame 1)).height ∧
    0 < 2 ∧ 2 + 1 < 5 ∧ 0 < 2 ∧ 2 + 1 < 5 :=
  mask_generator_invariants blockFrame 1 5 5 2 2 (by decide) (by decide) (by decide)
    (by decide)

/-! Helper lemmas for the alpha normalizer. -/

theorem normalizeAlphaVal_zero (amax : Nat) : normalizeAlphaVal amax 0 = 0 := by
  unfold normalizeAlphaVal clipQ
  rw [show (255 * ((0 : Nat) : ℚ)) / ((amax : Nat) : ℚ) = 0 by norm_num]
  rw [max_self, min_eq_left (by norm_num : (0 : ℚ) ≤ 255)]
  exact Nat.floor_zero

theorem normalizeAlphaVal_le_255 (amax a : Nat) : normalizeAlphaVal amax a ≤ 255 := by
  unfold normalizeAlphaVal clipQ
  have h : min (max ((255 * (a : ℚ)) / (amax : ℚ)) 0) 255 ≤ 255 := min_le_right _ _
  have h2 := Nat.floor_le_floor h
  simpa using h2

theorem normalizeAlphaVal_self (amax : Nat) (h : amax ≠ 0) :
    normalizeAlphaVal amax amax = 255 := by
  unfold normalizeAlphaVal clipQ
  have hq : (255 * (amax : ℚ)) / (amax : ℚ) = 255 := by
    rw [mul_div_assoc, div_self (Nat.cast_ne_zero.mpr h), mul_one]
  rw [hq, max_eq_left (by norm_num : (0 : ℚ) ≤ 255), min_self]
  norm_num [Nat.floor_eq_iff]

/-- C5 (counterexample to the rounding mode): line 152 of the source converts
the rescaled channel with `astype(np.uint8)`, which truncates toward zero; at
alpha value 1 with channel maximum 2 the exact rescaled value is `127.5`, the
nearest integer is `128`, but the pipeline produces `127`. -/
theorem alpha_normalizer_not_rounded :
    normalizeAlphaVal 2 1 = 127 ∧ normalizeAlphaValRounded 2 1 = 128 ∧
    normalizeAlphaVal 2 1 ≠ normalizeAlphaValRounded 2 1 ∧
    normalizeAlpha [[1, 2]] = [[127, 255]] := by
  have hq : (255 * ((1 : Nat) : ℚ)) / ((2 : Nat) : ℚ) = 255 / 2 := by norm_num
  have hclip : clipQ ((255 * ((1 : Nat) : ℚ)) / ((2 : Nat) : ℚ)) 0 255 = 255 / 2 := by
    unfold clipQ
    rw [hq, max_eq_left (by norm_num : (0 : ℚ) ≤ 255 / 2),
      min_eq_left (by norm_num : (255 : ℚ) / 2 ≤ 255)]
  have h1 : normalizeAlphaVal 2 1 = 127 := by
    unfold normalizeAlphaVal
    rw [hclip]
    norm_num [Nat.floor_eq_iff]
  have h2 : normalizeAlphaValRounded 2 1 = 128 := by
    unfold normalizeAlphaValRounded
    rw [hclip, show round ((255 : ℚ) / 2) = 128 from by norm_num [round_eq, Int.floor_eq_iff]]
    rfl
  refine ⟨h1, h2, by rw [h1, h2]; omega, ?_⟩
  have hmax : maxAlpha [[1, 2]] = 2 := rfl
  unfold normalizeAlpha
  rw [if_neg (by rw [hmax]; omega)]
  simp only [List.map_cons, List.map_nil]
  rw [hmax, h1, normalizeAlphaVal_self 2 (by omega)]

/-- C5 (amended): when the channel maximum is zero the alpha channel passes
through unchanged; otherwise every value `a` maps to
`floor(clip(a * 255 / max, 0, 255))` — truncation toward zero, not rounding to
nearest — and the output channel then attains the maximum 255. -/
theorem alpha_normalizer_amended (alpha : Grid) (H W : Nat) (hrect : Rect alpha H W) :
    (maxAlpha alpha = 0 → normalizeAlpha alpha = alpha) ∧
    (maxAlpha alpha ≠ 0 →
      (∀ r c, r < H → c < W →
        cell (normalizeAlpha alpha) r c =
          normalizeAlphaVal (maxAlpha alpha) (cell alpha r c)) ∧
      maxAlpha (normalizeAlpha alpha) = 255) := by
  constructor
  · intro h
    unfold normalizeAlpha
    rw [if_pos h]
  · intro h
    have hmask : normalizeAlpha alpha =
        alpha.map fun row => row.map fun a => normalizeAlphaVal (maxAlpha alpha) a := by
      unfold normalizeAlpha
      rw [if_neg h]
    constructor
    · intro r c _ _
      rw [hmask]
      exact getD_map_map _ (normalizeAlphaVal_zero (maxAlpha alpha)) alpha r c
    · rw [hmask]
      show maxL (alpha.map fun row =>
          row.map fun a => normalizeAlphaVal (maxAlpha alpha) a).flatten = 255
      rw [show (alpha.map fun row =>
            row.map fun a => normalizeAlphaVal (maxAlpha alpha) a).flatten =
          alpha.flatten.map fun a => normalizeAlphaVal (maxAlpha alpha) a from
        (List.map_flatten _ _).symm]
      have hJ : alpha.flatten ≠ [] := by
        intro he
        apply h
        show maxL alpha.flatten = 0
        rw [he]
        rfl
      have hmem : maxL alpha.flatten ∈ alpha.flatten := maxL_mem hJ
      have h255 : (255 : Nat) ∈
          alpha.flatten.map fun a => normalizeAlphaVal (maxAlpha alpha) a :=
        List.mem_map.mpr ⟨maxAlpha alpha, hmem, normalizeAlphaVal_self _ h⟩
      have hub : ∀ y ∈ alpha.flatten.map fun a => normalizeAlphaVal (maxAlpha alpha) a,
          y ≤ 255 := by
        intro y hy
        obtain ⟨a, _, rfl⟩ := List.mem_map.mp hy
        exact normalizeAlphaVal_le_255 _ _
      exact le_antisymm (hub _ (maxL_mem (List.ne_nil_of_mem h255))) (le_maxL h255)

/-- Witness for C5 at the channel `[[1, 2]]`: the maximum 2 is nonzero and the
normalized channel attains 255. -/
theorem alpha_normalizer_amended_witness :
    maxAlpha (normalizeAlpha [[1, 2]]) = 255 :=
  ((alpha_normalizer_amended [[1, 2]] 1 2 (by decide)).2 (by decide)).2

/-- C6: for a nonempty region mask the bounds extractor returns `x` = least
column with a positive pixel, `width` = greatest minus least column plus one,
and analogously `y`/`height` over rows; the result satisfies the
`ScreenBounds` invariant `x + width ≤ W` and `y + height ≤ H` (the `0 ≤ x`,
`0 ≤ y` parts hold by the ℕ coordinate type). -/
theorem bounds_extractor_spec (m : Grid) (H W : Nat) (hrect : Rect m H W)
    (hne : posCoords m ≠ []) :
    (extractBounds m).x = minL ((posCoords m).map Prod.snd) ∧
    (extractBounds m).y = minL ((posCoords m).map Prod.fst) ∧
    (extractBounds m).width =
      maxL ((posCoords m).map Prod.snd) - minL ((posCoords m).map Prod.snd) + 1 ∧
    (extractBounds m).height =
      maxL ((posCoords m).map Prod.fst) - minL ((posCoords m).map Prod.fst) + 1 ∧
    (extractBounds m).x + (extractBounds m).width ≤ W ∧
    (extractBounds m).y + (extractBounds m).height ≤ H := by
  have hcne : (posCoords m).map Prod.snd ≠ [] := by
    intro h
    exact hne (List.map_eq_nil_iff.mp h)
  have hrne : (posCoords m).map Prod.fst ≠ [] := by
    intro h
    exact hne (List.map_eq_nil_iff.mp h)
  obtain ⟨⟨r0, c0⟩, hp0, hfa⟩ := List.mem_map.mp (maxL_mem hcne)
  obtain ⟨hr0, hcl0, _⟩ := mem_coordsWhere.mp hp0
  have hcw : maxL ((posCoords m).map Prod.snd) < W := by
    rw [← hfa]
    have : (m.getD r0 []).length = W := rect_row_length hrect (hrect.1 ▸ hr0)
    rw [this] at hcl0
    exact hcl0
  obtain ⟨⟨r1, c1⟩, hp1, hfb⟩ := List.mem_map.mp (maxL_mem hrne)
  obtain ⟨hr1, _, _⟩ := mem_coordsWhere.mp hp1
  have hrh : maxL ((posCoords m).map Prod.fst) < H := by
    rw [← hfb]
    rw [hrect.1] at hr1
    exact hr1
  have e2 : minL ((posCoords m).map Prod.snd) ≤ maxL ((posCoords m).map Prod.snd) :=
    minL_le_maxL hcne
  have e3 : minL ((posCoords m).map Prod.fst) ≤ maxL ((posCoords m).map Prod.fst) :=
    minL_le_maxL hrne
  refine ⟨rfl, rfl, rfl, rfl, ?_, ?_⟩
  · simp only [extractBounds]
    omega
  · simp only [extractBounds]
    omega

/-- Witness for C6 at a concrete 2×2 mask with one positive pixel at `(0, 1)`:
the extracted bounds satisfy the `ScreenBounds` invariant. -/
theorem bounds_extractor_spec_witness :
    (extractBounds [[0, 1], [0, 0]]).x + (extractBounds [[0, 1], [0, 0]]).width ≤ 2 ∧
    (extractBounds [[0, 1], [0, 0]]).y + (extractBounds [[0, 1], [0, 0]]).height ≤ 2 := by
  have h := bounds_extractor_spec [[0, 1], [0, 0]] 2 2 (by decide) (by decide)
  exact ⟨h.2.2.2.2.1, h.2.2.2.2.2⟩

/-! Helper lemmas about the batch loop. -/

theorem foldl_batchStep_shift {α : Type} :
    ∀ (frames : List (α × Grid × Grid)) (a b : Nat),
      frames.foldl batchStep (a, b) =
        (a + (frames.foldl batchStep (0, 0)).1, b + (frames.foldl batchStep (0, 0)).2) := by
  intro frames
  induction frames with
  | nil => intro a b; simp
  | cons f fs ih =>
    intro a b
    rw [List.foldl_cons, List.foldl_cons]
    by_cases h : (processFrame f.1 f.2.1 f.2.2).1 = true
    · rw [show batchStep (a, b) f = (a + 1, b) from by unfold batchStep; rw [if_pos h],
        show batchStep ((0 : Nat), (0 : Nat)) f = (1, 0) from by unfold batchStep; rw [if_pos h]]
      rw [ih (a + 1) b, ih 1 0]
      simp only [Prod.mk.injEq]
      omega
    · rw [show batchStep (a, b) f = (a, b + 1) from by unfold batchStep; rw [if_neg h],
        show batchStep ((0 : Nat), (0 : Nat)) f = (0, 1) from by unfold batchStep; rw [if_neg h]]
      rw [ih a (b + 1), ih 0 1]
      simp only [Prod.mk.injEq]
      omega

theorem runBatch_total {α : Type} :
    ∀ frames : List (α × Grid × Grid),
      (runBatch frames).1 + (runBatch frames).2 = frames.length := by
  intro frames
  induction frames with
  | nil => rfl
  | cons f fs ih =>
    have ih2 : (fs.foldl batchStep (0, 0)).1 + (fs.foldl batchStep (0, 0)).2 = fs.length := ih
    show ((f :: fs).foldl batchStep (0, 0)).1 + ((f :: fs).foldl batchStep (0, 0)).2 =
      fs.length + 1
    rw [List.foldl_cons]
    by_cases h : (processFrame f.1 f.2.1 f.2.2).1 = true
    · rw [show batchStep ((0 : Nat), (0 : Nat)) f = (1, 0) from by unfold batchStep; rw [if_pos h]]
      rw [foldl_batchStep_shift fs 1 0]
      show 1 + (fs.foldl batchStep (0, 0)).1 + (0 + (fs.foldl batchStep (0, 0)).2) =
        fs.length + 1
      omega
    · rw [show batchStep ((0 : Nat), (0 : Nat)) f = (0, 1) from by unfold batchStep; rw [if_neg h]]
      rw [foldl_batchStep_shift fs 0 1]
      show 0 + (fs.foldl batchStep (0, 0)).1 + (1 + (fs.foldl batchStep (0, 0)).2) =
        fs.length + 1
      omega

theorem runBatch_append {α : Type} (fs gs : List (α × Grid × Grid)) :
    runBatch (fs ++ gs) =
      ((runBatch fs).1 + (runBatch gs).1, (runBatch fs).2 + (runBatch gs).2) := by
  show (fs ++ gs).foldl batchStep (0, 0) = _
  rw [List.foldl_append]
  rw [show fs.foldl batchStep ((0 : Nat), (0 : Nat)) =
      ((fs.foldl batchStep (0, 0)).1, (fs.foldl batchStep (0, 0)).2) from rfl]
  rw [foldl_batchStep_shift gs _ _]
  rfl

/-- C7: a frame on which the selector finds no candidate, or on which the
validator rejects the generated mask, yields `false` and writes no artifact at
all — no `frame.png`, no `mask.png`, no `template.json`; the batch driver
counts every frame as either processed or failed (the counts always sum to the
number of frames), and the counts over a concatenation of batches add
componentwise — one failing frame never affects the other frames or aborts the
run. -/
theorem failure_isolation {α : Type} :
    (∀ (img : α) (alpha lab : Grid),
      (selectScreenCandidate lab = none → processFrame img alpha lab = (false, [])) ∧
      (∀ l, selectScreenCandidate lab = some l →
        validate (generateScreenMask lab l (gridW alpha) (gridH alpha))
          (gridW alpha) (gridH alpha) (extractBounds (regionBinary lab l)) = false →
        processFrame img alpha lab = (false, []))) ∧
    (∀ frames : List (α × Grid × Grid),
      (runBatch frames).1 + (runBatch frames).2 = frames.length) ∧
    (∀ fs gs : List (α × Grid × Grid),
      runBatch (fs ++ gs) =
        ((runBatch fs).1 + (runBatch gs).1, (runBatch fs).2 + (runBatch gs).2)) := by
  refine ⟨?_, runBatch_total, runBatch_append⟩
  intro img alpha lab
  constructor
  · intro h
    simp [processFrame, h]
  · intro l hsel hval
    simp [processFrame, hsel, hval]

/-- Witness for C7: on a frame whose labeled array is all background the
selector fails and the pipeline reports failure with zero writes. -/
theorem failure_isolation_witness :
    processFrame () [[255]] [[0]] = (false, ([] : List (FSOp Unit))) :=
  ((@failure_isolation Unit).1 () [[255]] [[0]]).1 (by decide)

/-- C8: on a fully opaque frame (every pixel's alpha strictly above
`ALPHA_CLEAR`), any labeling satisfying the Region Labeler contract has no
positive label, so the selector reports failure and the pipeline produces no
template. -/
theorem opaque_frame_no_template {α : Type} (img : α) (alpha lab : Grid) (H W : Nat)
    (hrl : Rect lab H W) (hlabel : IsLabelingOf alpha lab)
    (hsolid : ∀ r c, r < H → c < W → alphaClear < cell alpha r c) :
    uniqueLabels lab = [] ∧ selectScreenCandidate lab = none ∧
      processFrame img alpha lab = (false, ([] : List (FSOp α))) := by
  have hall : ∀ l, l ∉ uniqueLabels lab := by
    intro l hl
    obtain ⟨hl0, hmem⟩ := mem_uniqueLabels.mp hl
    obtain ⟨row, hrow, hvrow⟩ := List.mem_flatten.mp hmem
    obtain ⟨r, hr, hre⟩ := List.mem_iff_getElem.mp hrow
    obtain ⟨c, hc, hce⟩ := List.mem_iff_getElem.mp hvrow
    have hrowD : lab.getD r [] = row := by rw [List.getD_eq_getElem _ _ hr, hre]
    have hcl : c < (lab.getD r []).length := by rw [hrowD]; exact hc
    have hcell : cell lab r c = l := by
      unfold cell
      rw [hrowD, List.getD_eq_getElem _ _ hc, hce]
    have htrans : cell alpha r c ≤ alphaClear :=
      (hlabel.2.2 r c hr hcl).mp (by rw [hcell]; exact hl0)
    have hrH : r < H := by rw [← hrl.1]; exact hr
    have hcW : c < W := by
      have h2 := rect_row_length hrl hrH
      rw [h2] at hcl
      exact hcl
    exact absurd htrans (not_le.mpr (hsolid r c hrH hcW))
  have h1 : uniqueLabels lab = [] := List.eq_nil_iff_forall_not_mem.mpr hall
  have h2 : selectScreenCandidate lab = none := by
    unfold selectScreenCandidate candidates
    rw [h1]
    rfl
  exact ⟨h1, h2, by simp [processFrame, h2]⟩

/-- Witness for C8 at a concrete fully opaque 1×2 frame with the all-zero
labeling. -/
theorem opaque_frame_no_template_witness :
    uniqueLabels [[0, 0]] = [] ∧ selectScreenCandidate [[0, 0]] = none ∧
      processFrame () [[200, 200]] [[0, 0]] = (false, ([] : List (FSOp Unit))) :=
  opaque_frame_no_template () [[200, 200]] [[0, 0]] 1 2 (by decide)
    (by
      refine ⟨rfl, ?_, ?_⟩
      · intro r hr
        have : r = 0 := by simpa using hr
        subst this
        rfl
      · intro r c hr hc
        have hr0 : r = 0 := by simpa using hr
        subst hr0
        have hc2 : c < 2 := by simpa using hc
        interval_cases c <;> decide)
    (by
      intro r c hr hc
      have hr0 : r = 0 := by omega
      subst hr0
      interval_cases c <;> decide)

/-- C9: the pipeline is deterministic — it is a pure function of the decoded
input, so two runs over the same image, alpha channel and labeled array
produce the same outputs (identical success flag and identical written
artifacts), with identical generated masks and identical extracted bounds at
every stage. -/
theorem pipeline_deterministic {α : Type} (img₁ img₂ : α) (alpha₁ alpha₂ lab₁ lab₂ : Grid)
    (h1 : img₁ = img₂) (h2 : alpha₁ = alpha₂) (h3 : lab₁ = lab₂) :
    processFrame img₁ alpha₁ lab₁ = processFrame img₂ alpha₂ lab₂ ∧
    (∀ l, generateScreenMask lab₁ l (gridW alpha₁) (gridH alpha₁) =
        generateScreenMask lab₂ l (gridW alpha₂) (gridH alpha₂) ∧
      extractBounds (regionBinary lab₁ l) = extractBounds (regionBinary lab₂ l)) := by
  subst h1
  subst h2
  subst h3
  exact ⟨rfl, fun l => ⟨rfl, rfl⟩⟩

/-- Witness for C9 at a concrete input. -/
theorem pipeline_deterministic_witness :
    processFrame () [[255]] [[0]] = processFrame () [[255]] [[0]] :=
  (pipeline_deterministic () () [[255]] [[255]] [[0]] [[0]] rfl rfl rfl).1

/-- C10: the processor's constructor records the directory creation before any
processing effect — `mkdirParents` heads the run's effect list — and a frame
that fails leaves exactly the directory creation behind (no artifact written,
and no operation ever removes the directory: the run contains no `removeDir`,
so the creation is not rolled back on failure). -/
theorem constructor_creates_output_dir {α : Type} (img : α) (alpha lab : Grid) :
    (processorRun img alpha lab).2.head? = some FSOp.mkdirParents ∧
    ((processFrame img alpha lab).1 = false →
      (processorRun img alpha lab).2 = [FSOp.mkdirParents]) ∧
    FSOp.removeDir ∉ (processorRun img alpha lab).2 := by
  refine ⟨rfl, ?_, ?_⟩
  · intro h
    have hops : (processFrame img alpha lab).2 = [] := by
      cases hs : selectScreenCandidate lab with
      | none => simp [processFrame, hs]
      | some l =>
        by_cases hv : validate (generateScreenMask lab l (gridW alpha) (gridH alpha))
            (gridW alpha) (gridH alpha) (extractBounds (regionBinary lab l)) = true
        · exfalso
          simp [processFrame, hs, hv] at h
        · simp [processFrame, hs, hv]
    show FSOp.mkdirParents :: (processFrame img alpha lab).2 = [FSOp.mkdirParents]
    rw [hops]
  · cases hs : selectScreenCandidate lab with
    | none => simp [processorRun, processFrame, hs]
    | some l =>
      by_cases hv : validate (generateScreenMask lab l (gridW alpha) (gridH alpha))
          (gridW alpha) (gridH alpha) (extractBounds (regionBinary lab l)) = true
      · simp [processorRun, processFrame, hs, hv, saveOutputs]
      · simp [processorRun, processFrame, hs, hv]

/-- Witness for C10: on a failing frame the whole run's effect list is exactly
the directory creation. -/
theorem constructor_creates_output_dir_witness :
    (processorRun () [[255]] [[0]]).2 = [FSOp.mkdirParents] :=
  (constructor_creates_output_dir () [[255]] [[0]]).2.1 (by decide)

end DeviceFrames
